import Mathlib

-- Shallow embedding of the EntityComponentSystem repository
-- (include/EntityManager.h, include/Component.h, include/Systems.h).
-- Entities are C++ ints (`using Entity = int`), modelled as Int.
-- std::unordered_map<Entity, C> is modelled as an association list with
-- at most one entry per key (the map invariant); std::vector as List.
-- The registry std::unordered_map<std::type_index, unique_ptr<IComponentStorage>>
-- is modelled as a list of dependent pairs over an abstract type-identity
-- type τ with a value interpretation V : τ → Type; the guaranteed-valid
-- downcast of the C++ code corresponds to the dependent typing.

namespace ECS

abbrev Entity := Int

-- Component.h: struct Health { int hp; }.
structure Health where
  hp : Int
deriving DecidableEq, Repr

-- ComponentStorage<C>::data : std::unordered_map<Entity, C>.
structure ComponentStorage (C : Type) where
  data : List (Entity × C)
deriving DecidableEq, Repr

-- unordered_map emplace followed by overwrite on failure (EntityManager.h
-- lines 52-58): replace the entry for the key when present, insert otherwise.
def listEmplace {C : Type} : List (Entity × C) → Entity → C → List (Entity × C)
  | [], e, v => [(e, v)]
  | (f, w) :: rest, e, v =>
    if f = e then (e, v) :: rest else (f, w) :: listEmplace rest e v

def ComponentStorage.emplace {C : Type} (s : ComponentStorage C) (e : Entity) (v : C) :
    ComponentStorage C :=
  ⟨listEmplace s.data e v⟩

-- data.erase(e): drop the entry with key e (EntityManager.h lines 64-66).
def ComponentStorage.remove {C : Type} (s : ComponentStorage C) (e : Entity) :
    ComponentStorage C :=
  ⟨s.data.filter (fun p => !(p.1 == e))⟩

-- data.find(e) != data.end() (EntityManager.h lines 73-75).
def ComponentStorage.has {C : Type} (s : ComponentStorage C) (e : Entity) : Bool :=
  s.data.any (fun p => p.1 == e)

-- pointer result of ComponentStorage::get modelled as Option (lines 82-95).
def ComponentStorage.get {C : Type} (s : ComponentStorage C) (e : Entity) : Option C :=
  (s.data.find? (fun p => p.1 == e)).map Prod.snd

-- components.find(ti) on the registry, with the downcast to
-- ComponentStorage<T> made type-correct by the dependent pair.
def lookupStore {τ : Type} [DecidableEq τ] {V : τ → Type} :
    List ((t : τ) × ComponentStorage (V t)) → (t : τ) → Option (ComponentStorage (V t))
  | [], _ => none
  | ⟨u, s⟩ :: rest, t => if h : u = t then some (h ▸ s) else lookupStore rest t

-- in-place mutation of the storage object found in the registry.
def updateStore {τ : Type} [DecidableEq τ] {V : τ → Type} :
    List ((t : τ) × ComponentStorage (V t)) → (t : τ) →
      (ComponentStorage (V t) → ComponentStorage (V t)) →
      List ((t : τ) × ComponentStorage (V t))
  | [], _, _ => []
  | ⟨u, s⟩ :: rest, t, f =>
    if h : u = t then ⟨t, f (h ▸ s)⟩ :: rest else ⟨u, s⟩ :: updateStore rest t f

-- EntityManager.h lines 262-267: nextId, entities, freeIds, components.
structure EntityManager (τ : Type) (V : τ → Type) where
  nextId : Int
  entities : List Entity
  freeIds : List Entity
  components : List ((t : τ) × ComponentStorage (V t))

-- EntityManager() : nextId(0).
def initManager (τ : Type) (V : τ → Type) : EntityManager τ V :=
  ⟨0, [], [], []⟩

-- createEntity (lines 124-135): pop the back of freeIds if non-empty,
-- else take nextId and increment it; push the id onto entities.
def EntityManager.createEntity {τ : Type} {V : τ → Type} (m : EntityManager τ V) :
    Entity × EntityManager τ V :=
  match m.freeIds.getLast? with
  | some id =>
    (id, { m with freeIds := m.freeIds.dropLast, entities := m.entities ++ [id] })
  | none =>
    (m.nextId, { m with nextId := m.nextId + 1, entities := m.entities ++ [m.nextId] })

-- destroyEntity (lines 141-148): erase-remove the id from entities,
-- push it onto freeIds unconditionally, call remove(id) on every storage.
def EntityManager.destroyEntity {τ : Type} {V : τ → Type} (m : EntityManager τ V)
    (id : Entity) : EntityManager τ V :=
  { m with
    entities := m.entities.filter (fun x => !(x == id)),
    freeIds := m.freeIds ++ [id],
    components := m.components.map (fun s => ⟨s.1, s.2.remove id⟩) }

-- addComponent<T> (lines 157-171): if no storage for T exists, construct an
-- empty one, register it and emplace; otherwise emplace into the found storage.
def EntityManager.addComponent {τ : Type} [DecidableEq τ] {V : τ → Type}
    (m : EntityManager τ V) (t : τ) (e : Entity) (v : V t) : EntityManager τ V :=
  match lookupStore m.components t with
  | none =>
    { m with components := m.components ++ [⟨t, ComponentStorage.emplace ⟨[]⟩ e v⟩] }
  | some _ =>
    { m with components := updateStore m.components t (fun s => s.emplace e v) }

-- removeComponent<T> (lines 178-185): early return when T has no storage.
def EntityManager.removeComponent {τ : Type} [DecidableEq τ] {V : τ → Type}
    (m : EntityManager τ V) (t : τ) (e : Entity) : EntityManager τ V :=
  match lookupStore m.components t with
  | none => m
  | some _ =>
    { m with components := updateStore m.components t (fun s => s.remove e) }

-- hasComponent<T> (lines 193-200).
def EntityManager.hasComponent {τ : Type} [DecidableEq τ] {V : τ → Type}
    (m : EntityManager τ V) (t : τ) (e : Entity) : Bool :=
  match lookupStore m.components t with
  | none => false
  | some s => s.has e

-- getComponent<T> (lines 208-215), pointer modelled as Option.
def EntityManager.getComponent {τ : Type} [DecidableEq τ] {V : τ → Type}
    (m : EntityManager τ V) (t : τ) (e : Entity) : Option (V t) :=
  match lookupStore m.components t with
  | none => none
  | some s => s.get e

-- forEach<T> (lines 236-245): the sequence of (entity, component) pairs the
-- loop ranges over at entry; empty when T has no storage.
def EntityManager.forEachPairs {τ : Type} [DecidableEq τ] {V : τ → Type}
    (m : EntityManager τ V) (t : τ) : List (Entity × V t) :=
  match lookupStore m.components t with
  | none => []
  | some s => s.data

-- A trace instruction: one call into the public EntityManager API.
inductive Op (τ : Type) (V : τ → Type) where
  | create : Op τ V
  | destroy (e : Entity) : Op τ V
  | add (t : τ) (e : Entity) (v : V t) : Op τ V
  | removeC (t : τ) (e : Entity) : Op τ V

def applyOp {τ : Type} [DecidableEq τ] {V : τ → Type} (m : EntityManager τ V) :
    Op τ V → EntityManager τ V
  | Op.create => (m.createEntity).2
  | Op.destroy e => m.destroyEntity e
  | Op.add t e v => m.addComponent t e v
  | Op.removeC t e => m.removeComponent t e

def run {τ : Type} [DecidableEq τ] {V : τ → Type} (ops : List (Op τ V)) :
    EntityManager τ V :=
  ops.foldl applyOp (initManager τ V)

-- Traces in which every destroyEntity call targets a currently-live id.
def okDestroys {τ : Type} [DecidableEq τ] {V : τ → Type} :
    EntityManager τ V → List (Op τ V) → Bool
  | _, [] => true
  | m, op :: rest =>
    (match op with
     | Op.destroy e => decide (e ∈ m.entities)
     | _ => true) && okDestroys (applyOp m op) rest

-- Concrete component universe used for witnesses and the health system.
inductive CTag where
  | health : CTag
  | name : CTag
deriving DecidableEq, Repr

def CVal : CTag → Type
  | CTag.health => Health
  | CTag.name => String

instance instDecEqCVal : (t : CTag) → DecidableEq (CVal t)
  | CTag.health => inferInstanceAs (DecidableEq Health)
  | CTag.name => inferInstanceAs (DecidableEq String)

-- HealthSystem::update visitor body (Systems.h lines 54-60): write
-- h.hp = std::max(0, h.hp - 1) through the reference into storage, then
-- destroy the entity when the new hp is 0 (console output omitted).
def healthVisitBody (m : EntityManager CTag CVal) (e : Entity) (h : Health) :
    EntityManager CTag CVal :=
  let newHp : Int := max 0 (h.hp - 1)
  let m2 := m.addComponent CTag.health e (Health.mk newHp)
  if newHp = 0 then m2.destroyEntity e else m2

-- Invariant of the entity lifecycle, maintained while destroyEntity is only
-- called on currently-live ids.
def LiveInv {τ : Type} {V : τ → Type} (m : EntityManager τ V) : Prop :=
  m.entities.Nodup ∧ m.freeIds.Nodup ∧
  (∀ e ∈ m.entities, e < m.nextId) ∧
  (∀ e ∈ m.freeIds, e < m.nextId) ∧
  (∀ e ∈ m.freeIds, e ∉ m.entities)

-- Invariant of the storages: each unordered_map holds at most one entry
-- per entity key.
def StoresNodupKeys {τ : Type} [DecidableEq τ] {V : τ → Type}
    (m : EntityManager τ V) : Prop :=
  ∀ (t : τ) (s : ComponentStorage (V t)),
    lookupStore m.components t = some s → (s.data.map Prod.fst).Nodup

-- Scenario of the mutation-during-iteration hazard: two live entities with
-- Health components, the first with hp 1.
def hazardManager : EntityManager CTag CVal :=
  run [Op.create, Op.create, Op.add CTag.health 0 (Health.mk 1),
    Op.add CTag.health 1 (Health.mk 5)]

-- Scenario of the end-to-end health test: one live entity with hp 1.
def dyingManager : EntityManager CTag CVal :=
  run [Op.create, Op.add CTag.health 0 (Health.mk 1)]

-- Registry lookup and update lemmas.

theorem lookup_update_self {τ : Type} [DecidableEq τ] {V : τ → Type}
    (l : List ((t : τ) × ComponentStorage (V t))) (t : τ)
    (f : ComponentStorage (V t) → ComponentStorage (V t)) :
    lookupStore (updateStore l t f) t = (lookupStore l t).map f := by
  induction l with
  | nil => simp [lookupStore, updateStore]
  | cons hd tl ih =>
    obtain ⟨u, s⟩ := hd
    by_cases h : u = t
    · subst h
      simp [lookupStore, updateStore]
    · simp [lookupStore, updateStore, h, ih]

theorem lookup_update_ne {τ : Type} [DecidableEq τ] {V : τ → Type}
    (l : List ((t : τ) × ComponentStorage (V t))) (t t' : τ)
    (f : ComponentStorage (V t) → ComponentStorage (V t)) (hne : t' ≠ t) :
    lookupStore (updateStore l t f) t' = lookupStore l t' := by
  induction l with
  | nil => simp [updateStore]
  | cons hd tl ih =>
    obtain ⟨u, s⟩ := hd
    by_cases h : u = t
    · subst h
      simp [lookupStore, updateStore, Ne.symm hne]
    · simp [lookupStore, updateStore, h, ih]

theorem lookup_map_remove {τ : Type} [DecidableEq τ] {V : τ → Type}
    (l : List ((t : τ) × ComponentStorage (V t))) (t : τ) (e : Entity) :
    lookupStore (l.map (fun s => ⟨s.1, s.2.remove e⟩)) t =
      (lookupStore l t).map (fun s => s.remove e) := by
  induction l with
  | nil => simp [lookupStore]
  | cons hd tl ih =>
    obtain ⟨u, s⟩ := hd
    by_cases h : u = t
    · subst h
      simp [lookupStore]
    · simp [lookupStore, h, ih]

theorem lookup_append_none {τ : Type} [DecidableEq τ] {V : τ → Type}
    (l : List ((t : τ) × ComponentStorage (V t))) (t : τ) (s : ComponentStorage (V t))
    (hl : lookupStore l t = none) :
    lookupStore (l ++ [⟨t, s⟩]) t = some s := by
  induction l with
  | nil => simp [lookupStore]
  | cons hd tl ih =>
    obtain ⟨u, w⟩ := hd
    by_cases h : u = t
    · subst h
      simp [lookupStore] at hl
    · simp [lookupStore, h] at hl ⊢
      exact ih hl

theorem lookup_append_ne {τ : Type} [DecidableEq τ] {V : τ → Type}
    (l : List ((t : τ) × ComponentStorage (V t))) (t t' : τ) (s : ComponentStorage (V t))
    (hne : t' ≠ t) :
    lookupStore (l ++ [⟨t, s⟩]) t' = lookupStore l t' := by
  induction l with
  | nil => simp [lookupStore, Ne.symm hne]
  | cons hd tl ih =>
    obtain ⟨u, w⟩ := hd
    by_cases h : u = t'
    · subst h
      simp [lookupStore]
    · simp [lookupStore, h, ih]

theorem lookup_none_not_mem_keys {τ : Type} [DecidableEq τ] {V : τ → Type}
    (l : List ((t : τ) × ComponentStorage (V t))) (t : τ)
    (hl : lookupStore l t = none) : t ∉ l.map Sigma.fst := by
  induction l with
  | nil => simp
  | cons hd tl ih =>
    obtain ⟨u, w⟩ := hd
    by_cases h : u = t
    · subst h
      simp [lookupStore] at hl
    · simp [lookupStore, h] at hl
      simp only [List.map_cons, List.mem_cons, not_or]
      exact ⟨fun he => h he.symm, ih hl⟩

theorem updateStore_keys {τ : Type} [DecidableEq τ] {V : τ → Type}
    (l : List ((t : τ) × ComponentStorage (V t))) (t : τ)
    (f : ComponentStorage (V t) → ComponentStorage (V t)) :
    (updateStore l t f).map Sigma.fst = l.map Sigma.fst := by
  induction l with
  | nil => simp [updateStore]
  | cons hd tl ih =>
    obtain ⟨u, s⟩ := hd
    by_cases h : u = t
    · subst h
      simp [updateStore]
    · simp [updateStore, h, ih]

theorem updateStore_eq_of_fix {τ : Type} [DecidableEq τ] {V : τ → Type}
    (l : List ((t : τ) × ComponentStorage (V t))) (t : τ)
    (f : ComponentStorage (V t) → ComponentStorage (V t)) (s : ComponentStorage (V t))
    (hl : lookupStore l t = some s) (hf : f s = s) : updateStore l t f = l := by
  induction l with
  | nil => simp [lookupStore] at hl
  | cons hd tl ih =>
    obtain ⟨u, w⟩ := hd
    by_cases h : u = t
    · subst h
      simp [lookupStore] at hl
      simp [updateStore, hl, hf]
    · simp [lookupStore, h] at hl
      simp [updateStore, h, ih hl]

-- Storage-level lemmas about emplace, remove, has and get.

theorem find?_listEmplace {C : Type} (l : List (Entity × C)) (e : Entity) (v : C) :
    (listEmplace l e v).find? (fun p => p.1 == e) = some (e, v) := by
  induction l with
  | nil => simp [listEmplace]
  | cons hd tl ih =>
    obtain ⟨f, w⟩ := hd
    by_cases h : f = e
    · subst h
      simp [listEmplace, List.find?]
    · simp [listEmplace, h, List.find?, ih]

theorem keys_mem_listEmplace {C : Type} (l : List (Entity × C)) (e x : Entity) (v : C)
    (hx : x ∈ (listEmplace l e v).map Prod.fst) :
    x ∈ l.map Prod.fst ∨ x = e := by
  induction l with
  | nil =>
    simp only [listEmplace, List.map_cons, List.map_nil, List.mem_singleton] at hx
    exact Or.inr hx
  | cons hd tl ih =>
    obtain ⟨f, w⟩ := hd
    by_cases h : f = e
    · subst h
      simp only [listEmplace, eq_self_iff_true, if_true, List.map_cons, List.mem_cons] at hx
      rcases hx with hx | hx
      · exact Or.inr hx
      · exact Or.inl (by
          simp only [List.map_cons, List.mem_cons]
          exact Or.inr hx)
    · simp only [listEmplace, if_neg h, List.map_cons, List.mem_cons] at hx
      rcases hx with hx | hx
      · exact Or.inl (by
          simp only [List.map_cons, List.mem_cons]
          exact Or.inl hx)
      · rcases ih hx with hm | hm
        · exact Or.inl (by
            simp only [List.map_cons, List.mem_cons]
            exact Or.inr hm)
        · exact Or.inr hm

theorem nodup_keys_listEmplace {C : Type} (l : List (Entity × C)) (e : Entity) (v : C)
    (hl : (l.map Prod.fst).Nodup) : ((listEmplace l e v).map Prod.fst).Nodup := by
  induction l with
  | nil => simp [listEmplace]
  | cons hd tl ih =>
    obtain ⟨f, w⟩ := hd
    simp only [List.map_cons, List.nodup_cons] at hl
    by_cases h : f = e
    · subst h
      simpa [listEmplace] using hl
    · simp only [listEmplace, h, if_false, List.map_cons, List.nodup_cons]
      refine ⟨fun hmem => ?_, ih hl.2⟩
      rcases keys_mem_listEmplace tl e f v hmem with hm | hm
      · exact hl.1 hm
      · exact h hm

theorem has_false_forall {C : Type} (s : ComponentStorage C) (e : Entity)
    (h : s.has e = false) : ∀ p ∈ s.data, p.1 ≠ e := by
  intro p hp
  have := List.any_eq_false.mp h p hp
  simpa using this

theorem remove_eq_of_has_false {C : Type} (s : ComponentStorage C) (e : Entity)
    (h : s.has e = false) : s.remove e = s := by
  have : s.data.filter (fun p => !(p.1 == e)) = s.data := by
    rw [List.filter_eq_self]
    intro p hp
    simpa using has_false_forall s e h p hp
  calc s.remove e = ⟨s.data.filter (fun p => !(p.1 == e))⟩ := rfl
    _ = ⟨s.data⟩ := by rw [this]

theorem get_none_of_has_false {C : Type} (s : ComponentStorage C) (e : Entity)
    (h : s.has e = false) : s.get e = none := by
  have : s.data.find? (fun p => p.1 == e) = none := by
    rw [List.find?_eq_none]
    intro p hp
    simpa using has_false_forall s e h p hp
  simp [ComponentStorage.get, this]

theorem remove_has_false {C : Type} (s : ComponentStorage C) (e : Entity) :
    (s.remove e).has e = false := by
  rw [ComponentStorage.has, List.any_eq_false]
  intro p hp
  rw [ComponentStorage.remove] at hp
  simp only [List.mem_filter] at hp
  simpa using hp.2

theorem remove_not_mem_keys {C : Type} (s : ComponentStorage C) (e : Entity) :
    e ∉ (s.remove e).data.map Prod.fst := by
  intro hmem
  simp only [List.mem_map] at hmem
  obtain ⟨p, hp, hpe⟩ := hmem
  rw [ComponentStorage.remove] at hp
  simp only [List.mem_filter] at hp
  have := hp.2
  simp [hpe] at this

theorem emplace_get {C : Type} (s : ComponentStorage C) (e : Entity) (v : C) :
    (s.emplace e v).get e = some v := by
  simp [ComponentStorage.get, ComponentStorage.emplace, find?_listEmplace]

theorem has_of_get_some {C : Type} (s : ComponentStorage C) (e : Entity) (v : C)
    (h : s.get e = some v) : s.has e = true := by
  rw [ComponentStorage.get] at h
  rcases hf : s.data.find? (fun p => p.1 == e) with _ | p
  · rw [hf] at h
    simp at h
  · have hmem := List.mem_of_find?_eq_some hf
    have hpe := List.find?_some hf
    rw [ComponentStorage.has, List.any_eq_true]
    exact ⟨p, hmem, hpe⟩

theorem mem_keys_of_get_some {C : Type} (s : ComponentStorage C) (e : Entity) (v : C)
    (h : s.get e = some v) : e ∈ s.data.map Prod.fst := by
  rw [ComponentStorage.get] at h
  rcases hf : s.data.find? (fun p => p.1 == e) with _ | p
  · rw [hf] at h
    simp at h
  · have hmem := List.mem_of_find?_eq_some hf
    have hpe := List.find?_some hf
    have h1 : p.1 = e := by simpa using hpe
    exact h1 ▸ List.mem_map_of_mem Prod.fst hmem

-- Characterization of addComponent and removeComponent.

theorem lookup_add_self_none {τ : Type} [DecidableEq τ] {V : τ → Type}
    (m : EntityManager τ V) (t : τ) (e : Entity) (v : V t)
    (h : lookupStore m.components t = none) :
    lookupStore (m.addComponent t e v).components t = some ⟨[(e, v)]⟩ := by
  simp only [EntityManager.addComponent, h]
  exact lookup_append_none m.components t _ h

theorem lookup_add_self_some {τ : Type} [DecidableEq τ] {V : τ → Type}
    (m : EntityManager τ V) (t : τ) (e : Entity) (v : V t) (s : ComponentStorage (V t))
    (h : lookupStore m.components t = some s) :
    lookupStore (m.addComponent t e v).components t = some (s.emplace e v) := by
  simp only [EntityManager.addComponent, h]
  rw [lookup_update_self, h]
  rfl

theorem lookup_add_ne {τ : Type} [DecidableEq τ] {V : τ → Type}
    (m : EntityManager τ V) (t t' : τ) (e : Entity) (v : V t) (hne : t' ≠ t) :
    lookupStore (m.addComponent t e v).components t' = lookupStore m.components t' := by
  rcases h : lookupStore m.components t with _ | s
  · simp only [EntityManager.addComponent, h]
    exact lookup_append_ne m.components t t' _ hne
  · simp only [EntityManager.addComponent, h]
    exact lookup_update_ne m.components t t' _ hne

theorem add_lifecycle_fields {τ : Type} [DecidableEq τ] {V : τ → Type}
    (m : EntityManager τ V) (t : τ) (e : Entity) (v : V t) :
    (m.addComponent t e v).entities = m.entities ∧
    (m.addComponent t e v).freeIds = m.freeIds ∧
    (m.addComponent t e v).nextId = m.nextId := by
  rcases h : lookupStore m.components t with _ | s <;>
    simp [EntityManager.addComponent, h]

theorem removeC_lifecycle_fields {τ : Type} [DecidableEq τ] {V : τ → Type}
    (m : EntityManager τ V) (t : τ) (e : Entity) :
    (m.removeComponent t e).entities = m.entities ∧
    (m.removeComponent t e).freeIds = m.freeIds ∧
    (m.removeComponent t e).nextId = m.nextId := by
  rcases h : lookupStore m.components t with _ | s <;>
    simp [EntityManager.removeComponent, h]

theorem getComponent_add {τ : Type} [DecidableEq τ] {V : τ → Type}
    (m : EntityManager τ V) (t : τ) (e : Entity) (v : V t) :
    (m.addComponent t e v).getComponent t e = some v := by
  rcases h : lookupStore m.components t with _ | s
  · rw [EntityManager.getComponent, lookup_add_self_none m t e v h]
    simp [ComponentStorage.get, List.find?]
  · rw [EntityManager.getComponent, lookup_add_self_some m t e v s h]
    exact emplace_get s e v

theorem hasComponent_add {τ : Type} [DecidableEq τ] {V : τ → Type}
    (m : EntityManager τ V) (t : τ) (e : Entity) (v : V t) :
    (m.addComponent t e v).hasComponent t e = true := by
  rcases h : lookupStore (m.addComponent t e v).components t with _ | s
  · have := getComponent_add m t e v
    rw [EntityManager.getComponent, h] at this
    simp at this
  · have := getComponent_add m t e v
    rw [EntityManager.getComponent, h] at this
    rw [EntityManager.hasComponent, h]
    exact has_of_get_some s e v this

theorem mem_forEachPairs_add {τ : Type} [DecidableEq τ] {V : τ → Type}
    (m : EntityManager τ V) (t : τ) (e : Entity) (v : V t) :
    e ∈ ((m.addComponent t e v).forEachPairs t).map Prod.fst := by
  rcases h : lookupStore (m.addComponent t e v).components t with _ | s
  · have := getComponent_add m t e v
    rw [EntityManager.getComponent, h] at this
    simp at this
  · have := getComponent_add m t e v
    rw [EntityManager.getComponent, h] at this
    rw [EntityManager.forEachPairs, h]
    exact mem_keys_of_get_some s e v this

-- Entity lifecycle lemmas.

theorem createEntity_concat {τ : Type} {V : τ → Type} (m : EntityManager τ V)
    (l : List Entity) (x : Entity) (h : m.freeIds = l ++ [x]) :
    (m.createEntity).1 = x ∧
    (m.createEntity).2.entities = m.entities ++ [x] ∧
    (m.createEntity).2.freeIds = l ∧
    (m.createEntity).2.nextId = m.nextId ∧
    (m.createEntity).2.components = m.components := by
  rw [EntityManager.createEntity, h]
  simp [List.getLast?_concat]

theorem createEntity_nil {τ : Type} {V : τ → Type} (m : EntityManager τ V)
    (h : m.freeIds = []) :
    (m.createEntity).1 = m.nextId ∧
    (m.createEntity).2.entities = m.entities ++ [m.nextId] ∧
    (m.createEntity).2.freeIds = [] ∧
    (m.createEntity).2.nextId = m.nextId + 1 ∧
    (m.createEntity).2.components = m.components := by
  rw [EntityManager.createEntity, h]
  simp [h]

theorem liveInv_init {τ : Type} {V : τ → Type} : LiveInv (initManager τ V) := by
  refine ⟨?_, ?_, ?_, ?_, ?_⟩ <;> simp [initManager, LiveInv]

theorem createEntity_fresh {τ : Type} {V : τ → Type} (m : EntityManager τ V)
    (h : LiveInv m) : (m.createEntity).1 ∉ m.entities := by
  obtain ⟨hne, hnf, hbe, hbf, hdisj⟩ := h
  rcases List.eq_nil_or_concat m.freeIds with hnil | ⟨l, x, hcat⟩
  · rw [(createEntity_nil m hnil).1]
    intro hmem
    exact lt_irrefl m.nextId (hbe m.nextId hmem)
  · rw [List.concat_eq_append] at hcat
    rw [(createEntity_concat m l x hcat).1]
    exact hdisj x (by rw [hcat]; exact List.mem_append_right l (List.mem_singleton.mpr rfl))

theorem liveInv_create {τ : Type} {V : τ → Type} (m : EntityManager τ V)
    (h : LiveInv m) : LiveInv (m.createEntity).2 := by
  have hfresh := createEntity_fresh m h
  obtain ⟨hne, hnf, hbe, hbf, hdisj⟩ := h
  rcases List.eq_nil_or_concat m.freeIds with hnil | ⟨l, x, hcat⟩
  · obtain ⟨h1, h2, h3, h4, h5⟩ := createEntity_nil m hnil
    rw [h1] at hfresh
    refine ⟨?_, ?_, ?_, ?_, ?_⟩
    · rw [h2]
      rw [List.nodup_append]
      exact ⟨hne, List.nodup_singleton _, fun a ha hb => by
        rw [List.mem_singleton] at hb
        exact hfresh (hb ▸ ha)⟩
    · rw [h3]
      exact List.nodup_nil
    · rw [h2, h4]
      intro e he
      rcases List.mem_append.mp he with he | he
      · exact lt_trans (hbe e he) (lt_add_one m.nextId)
      · rw [List.mem_singleton] at he
        subst he
        exact lt_add_one m.nextId
    · rw [h3]
      intro e he
      exact absurd he (List.not_mem_nil e)
    · rw [h3]
      intro e he
      exact absurd he (List.not_mem_nil e)
  · rw [List.concat_eq_append] at hcat
    obtain ⟨h1, h2, h3, h4, h5⟩ := createEntity_concat m l x hcat
    rw [h1] at hfresh
    rw [hcat, List.nodup_append] at hnf
    obtain ⟨hnl, _, hdis⟩ := hnf
    have hxfree : x ∈ m.freeIds := by
      rw [hcat]
      exact List.mem_append_right l (List.mem_singleton.mpr rfl)
    refine ⟨?_, ?_, ?_, ?_, ?_⟩
    · rw [h2, List.nodup_append]
      exact ⟨hne, List.nodup_singleton _, fun a ha hb => by
        rw [List.mem_singleton] at hb
        exact hfresh (hb ▸ ha)⟩
    · rw [h3]
      exact hnl
    · rw [h2, h4]
      intro e he
      rcases List.mem_append.mp he with he | he
      · exact hbe e he
      · rw [List.mem_singleton] at he
        exact he ▸ hbf x hxfree
    · rw [h3, h4]
      intro e he
      exact hbf e (by rw [hcat]; exact List.mem_append_left _ he)
    · rw [h2, h3]
      intro e he hmem
      rcases List.mem_append.mp hmem with hm | hm
      · exact hdisj e (by rw [hcat]; exact List.mem_append_left _ he) hm
      · rw [List.mem_singleton] at hm
        exact hdis (hm ▸ he) (List.mem_singleton.mpr rfl)

theorem liveInv_destroy {τ : Type} {V : τ → Type} (m : EntityManager τ V)
    (id : Entity) (hmem : id ∈ m.entities) (h : LiveInv m) :
    LiveInv (m.destroyEntity id) := by
  obtain ⟨hne, hnf, hbe, hbf, hdisj⟩ := h
  refine ⟨?_, ?_, ?_, ?_, ?_⟩
  · exact List.Sublist.nodup (List.filter_sublist m.entities) hne
  · rw [EntityManager.destroyEntity, List.nodup_append]
    refine ⟨hnf, List.nodup_singleton _, fun a ha hb => ?_⟩
    rw [List.mem_singleton] at hb
    exact hdisj a ha (hb ▸ hmem)
  · intro e he
    rw [EntityManager.destroyEntity] at he
    exact hbe e (List.mem_of_mem_filter he)
  · intro e he
    rw [EntityManager.destroyEntity] at he
    rcases List.mem_append.mp he with he | he
    · exact hbf e he
    · rw [List.mem_singleton] at he
      exact he ▸ hbe id hmem
  · intro e he hmm
    rw [EntityManager.destroyEntity] at he hmm
    simp only [List.mem_filter] at hmm
    rcases List.mem_append.mp he with he | he
    · exact hdisj e he hmm.1
    · rw [List.mem_singleton] at he
      subst he
      simp at hmm

theorem liveInv_applyOp {τ : Type} [DecidableEq τ] {V : τ → Type}
    (m : EntityManager τ V) (op : Op τ V) (h : LiveInv m)
    (hok : ∀ e, op = Op.destroy e → e ∈ m.entities) :
    LiveInv (applyOp m op) := by
  cases op with
  | create => exact liveInv_create m h
  | destroy e => exact liveInv_destroy m e (hok e rfl) h
  | add t e v =>
    obtain ⟨h1, h2, h3⟩ := add_lifecycle_fields m t e v
    obtain ⟨hne, hnf, hbe, hbf, hdisj⟩ := h
    exact ⟨h1 ▸ hne, h2 ▸ hnf, by rw [applyOp, h1, h3]; exact hbe,
      by rw [applyOp, h2, h3]; exact hbf, by rw [applyOp, h1, h2]; exact hdisj⟩
  | removeC t e =>
    obtain ⟨h1, h2, h3⟩ := removeC_lifecycle_fields m t e
    obtain ⟨hne, hnf, hbe, hbf, hdisj⟩ := h
    exact ⟨h1 ▸ hne, h2 ▸ hnf, by rw [applyOp, h1, h3]; exact hbe,
      by rw [applyOp, h2, h3]; exact hbf, by rw [applyOp, h1, h2]; exact hdisj⟩

theorem liveInv_foldl {τ : Type} [DecidableEq τ] {V : τ → Type} :
    ∀ (ops : List (Op τ V)) (m : EntityManager τ V), LiveInv m →
      okDestroys m ops = true → LiveInv (ops.foldl applyOp m)
  | [], _, h, _ => h
  | op :: rest, m, h, hok => by
    cases op with
    | create =>
      have hok2 : (true && okDestroys (applyOp m Op.create) rest) = true := hok
      rw [Bool.true_and] at hok2
      exact liveInv_foldl rest _
        (liveInv_applyOp m _ h (fun e hde => Op.noConfusion hde)) hok2
    | destroy e0 =>
      have hok2 : (decide (e0 ∈ m.entities) &&
          okDestroys (applyOp m (Op.destroy e0)) rest) = true := hok
      rw [Bool.and_eq_true] at hok2
      have hmem : e0 ∈ m.entities := of_decide_eq_true hok2.1
      exact liveInv_foldl rest _
        (liveInv_applyOp m _ h (fun e hde => by
          injection hde with h1
          subst h1
          exact hmem)) hok2.2
    | add t e0 v =>
      have hok2 : (true && okDestroys (applyOp m (Op.add t e0 v)) rest) = true := hok
      rw [Bool.true_and] at hok2
      exact liveInv_foldl rest _
        (liveInv_applyOp m _ h (fun e hde => Op.noConfusion hde)) hok2
    | removeC t e0 =>
      have hok2 : (true && okDestroys (applyOp m (Op.removeC t e0)) rest) = true := hok
      rw [Bool.true_and] at hok2
      exact liveInv_foldl rest _
        (liveInv_applyOp m _ h (fun e hde => Op.noConfusion hde)) hok2

-- More characterization lemmas: createEntity, destroyEntity, removeComponent.

theorem create_components {τ : Type} {V : τ → Type} (m : EntityManager τ V) :
    (m.createEntity).2.components = m.components := by
  rcases hg : m.freeIds.getLast? with _ | x <;>
    simp [EntityManager.createEntity, hg]

theorem lookup_destroy {τ : Type} [DecidableEq τ] {V : τ → Type}
    (m : EntityManager τ V) (e : Entity) (t : τ) :
    lookupStore (m.destroyEntity e).components t =
      (lookupStore m.components t).map (fun s => s.remove e) :=
  lookup_map_remove m.components t e

theorem lookup_removeC_self {τ : Type} [DecidableEq τ] {V : τ → Type}
    (m : EntityManager τ V) (t : τ) (e : Entity) :
    lookupStore (m.removeComponent t e).components t =
      (lookupStore m.components t).map (fun s => s.remove e) := by
  rcases h : lookupStore m.components t with _ | s
  · simp [EntityManager.removeComponent, h]
  · simp only [EntityManager.removeComponent, h]
    rw [lookup_update_self, h]

theorem lookup_removeC_ne {τ : Type} [DecidableEq τ] {V : τ → Type}
    (m : EntityManager τ V) (t t' : τ) (e : Entity) (hne : t' ≠ t) :
    lookupStore (m.removeComponent t e).components t' = lookupStore m.components t' := by
  rcases h : lookupStore m.components t with _ | s
  · simp [EntityManager.removeComponent, h]
  · simp only [EntityManager.removeComponent, h]
    exact lookup_update_ne m.components t t' _ hne

-- Preservation of the per-storage key uniqueness invariant.

theorem storesNodup_init {τ : Type} [DecidableEq τ] {V : τ → Type} :
    StoresNodupKeys (initManager τ V) := by
  intro t s hs
  simp [initManager, lookupStore] at hs

theorem nodup_keys_remove {C : Type} (s : ComponentStorage C) (e : Entity)
    (h : (s.data.map Prod.fst).Nodup) : ((s.remove e).data.map Prod.fst).Nodup :=
  List.Sublist.nodup (List.Sublist.map Prod.fst (List.filter_sublist s.data)) h

theorem storesNodup_applyOp {τ : Type} [DecidableEq τ] {V : τ → Type}
    (m : EntityManager τ V) (op : Op τ V) (h : StoresNodupKeys m) :
    StoresNodupKeys (applyOp m op) := by
  cases op with
  | create =>
    intro t s hs
    rw [applyOp, create_components] at hs
    exact h t s hs
  | destroy e =>
    intro t s hs
    rw [applyOp, lookup_destroy] at hs
    rcases hm : lookupStore m.components t with _ | s0
    · rw [hm] at hs
      simp at hs
    · rw [hm] at hs
      simp only [Option.map_some'] at hs
      cases hs
      exact nodup_keys_remove s0 e (h t s0 hm)
  | add t' e v =>
    intro t s hs
    by_cases hte : t = t'
    · subst hte
      rcases hm : lookupStore m.components t with _ | s0
      · rw [applyOp, lookup_add_self_none m t e v hm] at hs
        cases hs
        simp
      · rw [applyOp, lookup_add_self_some m t e v s0 hm] at hs
        cases hs
        exact nodup_keys_listEmplace s0.data e v (h t s0 hm)
    · rw [applyOp, lookup_add_ne m t' t e v hte] at hs
      exact h t s hs
  | removeC t' e =>
    intro t s hs
    by_cases hte : t = t'
    · subst hte
      rw [applyOp, lookup_removeC_self] at hs
      rcases hm : lookupStore m.components t with _ | s0
      · rw [hm] at hs
        simp at hs
      · rw [hm] at hs
        simp only [Option.map_some'] at hs
        cases hs
        exact nodup_keys_remove s0 e (h t s0 hm)
    · rw [applyOp, lookup_removeC_ne m t' t e hte] at hs
      exact h t s hs

theorem storesNodup_foldl {τ : Type} [DecidableEq τ] {V : τ → Type} :
    ∀ (ops : List (Op τ V)) (m : EntityManager τ V), StoresNodupKeys m →
      StoresNodupKeys (ops.foldl applyOp m)
  | [], _, h => h
  | op :: rest, m, h =>
    storesNodup_foldl rest (applyOp m op) (storesNodup_applyOp m op h)

-- Registry key uniqueness: at most one storage entry per component type.

theorem destroy_registry_keys {τ : Type} {V : τ → Type} (m : EntityManager τ V)
    (e : Entity) :
    (m.destroyEntity e).components.map Sigma.fst = m.components.map Sigma.fst := by
  rw [EntityManager.destroyEntity]
  simp [List.map_map, Function.comp]

theorem registryNodup_applyOp {τ : Type} [DecidableEq τ] {V : τ → Type}
    (m : EntityManager τ V) (op : Op τ V)
    (h : (m.components.map Sigma.fst).Nodup) :
    ((applyOp m op).components.map Sigma.fst).Nodup := by
  cases op with
  | create =>
    rw [applyOp, create_components]
    exact h
  | destroy e =>
    rw [applyOp, destroy_registry_keys]
    exact h
  | add t e v =>
    rcases hm : lookupStore m.components t with _ | s
    · show (((m.addComponent t e v).components).map Sigma.fst).Nodup
      simp only [EntityManager.addComponent, hm]
      rw [List.map_append, List.nodup_append]
      refine ⟨h, by simp, fun a ha hb => ?_⟩
      simp at hb
      subst hb
      exact lookup_none_not_mem_keys m.components _ hm ha
    · show (((m.addComponent t e v).components).map Sigma.fst).Nodup
      simp only [EntityManager.addComponent, hm]
      rw [updateStore_keys]
      exact h
  | removeC t e =>
    rcases hm : lookupStore m.components t with _ | s
    · show (((m.removeComponent t e).components).map Sigma.fst).Nodup
      simp only [EntityManager.removeComponent, hm]
      exact h
    · show (((m.removeComponent t e).components).map Sigma.fst).Nodup
      simp only [EntityManager.removeComponent, hm]
      rw [updateStore_keys]
      exact h

theorem registryNodup_foldl {τ : Type} [DecidableEq τ] {V : τ → Type} :
    ∀ (ops : List (Op τ V)) (m : EntityManager τ V),
      (m.components.map Sigma.fst).Nodup →
      ((ops.foldl applyOp m).components.map Sigma.fst).Nodup
  | [], _, h => h
  | op :: rest, m, h =>
    registryNodup_foldl rest (applyOp m op) (registryNodup_applyOp m op h)

-- Claim theorems.

/-- C1, as stated, is false of the code: destroyEntity pushes the id onto the
free list unconditionally, so destroying an id that was never live (here 0 on
a fresh manager) lets two subsequent createEntity calls both return 0, and the
second of them returns an id that is already in the live set. -/
theorem C1_counterexample :
    ¬ (run ([Op.destroy 0, Op.create, Op.create] :
        List (Op CTag CVal))).entities.Nodup ∧
    ((run ([Op.destroy 0, Op.create] :
        List (Op CTag CVal))).createEntity).1 ∈
      (run ([Op.destroy 0, Op.create] : List (Op CTag CVal))).entities := by
  decide

/-- C1 (amended): for every sequence of calls in which destroyEntity is only
applied to currently-live ids, no two simultaneously-live entities share an
id, and createEntity never returns an id currently in the live set. -/
theorem C1_live_ids_unique {τ : Type} [DecidableEq τ] (V : τ → Type)
    (ops : List (Op τ V)) (hok : okDestroys (initManager τ V) ops = true) :
    (run ops).entities.Nodup ∧
    ((run ops).createEntity).1 ∉ (run ops).entities := by
  have hinv := liveInv_foldl ops (initManager τ V) liveInv_init hok
  exact ⟨hinv.1, createEntity_fresh _ hinv⟩

/-- C1 witness: the amended theorem applied to the concrete valid trace
create, create, destroy 1. -/
theorem C1_witness :
    (run ([Op.create, Op.create, Op.destroy 1] :
        List (Op CTag CVal))).entities.Nodup ∧
    ((run ([Op.create, Op.create, Op.destroy 1] :
        List (Op CTag CVal))).createEntity).1 ∉
      (run ([Op.create, Op.create, Op.destroy 1] : List (Op CTag CVal))).entities :=
  C1_live_ids_unique CVal [Op.create, Op.create, Op.destroy 1] (by decide)

/-- C3: createEntity pops the back of the free list when it is non-empty
(last-destroyed-first), otherwise returns nextId and increments it; in both
cases the returned id is appended to the live list and the call is total.
Concretely, after creating 0, 1, 2 and destroying 1, the next create
returns 1. -/
theorem C3_create_recycles_lifo {τ : Type} [DecidableEq τ] (V : τ → Type)
    (m : EntityManager τ V) :
    (∀ (l : List Entity) (x : Entity), m.freeIds = l ++ [x] →
      (m.createEntity).1 = x ∧
      (m.createEntity).2.entities = m.entities ++ [x] ∧
      (m.createEntity).2.freeIds = l ∧
      (m.createEntity).2.nextId = m.nextId) ∧
    (m.freeIds = [] →
      (m.createEntity).1 = m.nextId ∧
      (m.createEntity).2.nextId = m.nextId + 1 ∧
      (m.createEntity).2.entities = m.entities ++ [m.nextId]) ∧
    ((run ([Op.create, Op.create, Op.create, Op.destroy 1] :
        List (Op CTag CVal))).createEntity).1 = 1 := by
  refine ⟨?_, ?_, by decide⟩
  · intro l x hl
    obtain ⟨h1, h2, h3, h4, _⟩ := createEntity_concat m l x hl
    exact ⟨h1, h2, h3, h4⟩
  · intro hnil
    obtain ⟨h1, h2, h3, h4, _⟩ := createEntity_nil m hnil
    exact ⟨h1, h4, h2⟩

/-- C3 witness: the theorem applied to a manager with free list 5, 7 and to
the fresh manager. -/
theorem C3_witness :
    ((⟨10, [0], [5, 7], []⟩ : EntityManager CTag CVal).createEntity).1 = 7 ∧
    ((initManager CTag CVal).createEntity).1 = 0 :=
  ⟨((C3_create_recycles_lifo CVal ⟨10, [0], [5, 7], []⟩).1 [5] 7 rfl).1,
   ((C3_create_recycles_lifo CVal (initManager CTag CVal)).2.1 rfl).1⟩

/-- C4: after destroyEntity e, every storage in the registry has the entry
for e removed: hasComponent is false, getComponent is none, forEach no
longer visits e, and each existing storage equals its previous value with
the entry for e erased. -/
theorem C4_destroy_cascades {τ : Type} [DecidableEq τ] (V : τ → Type)
    (m : EntityManager τ V) (e : Entity) (t : τ) :
    (m.destroyEntity e).hasComponent t e = false ∧
    (m.destroyEntity e).getComponent t e = none ∧
    e ∉ ((m.destroyEntity e).forEachPairs t).map Prod.fst ∧
    lookupStore (m.destroyEntity e).components t =
      (lookupStore m.components t).map (fun s => s.remove e) := by
  have hl := lookup_destroy m e t
  have hhas : (m.destroyEntity e).hasComponent t e = false := by
    rw [EntityManager.hasComponent, hl]
    rcases lookupStore m.components t with _ | s0
    · rfl
    · exact remove_has_false s0 e
  refine ⟨hhas, ?_, ?_, hl⟩
  · rw [EntityManager.getComponent, hl]
    rcases lookupStore m.components t with _ | s0
    · rfl
    · exact get_none_of_has_false _ e (remove_has_false s0 e)
  · rw [EntityManager.forEachPairs, hl]
    rcases lookupStore m.components t with _ | s0
    · simp
    · exact remove_not_mem_keys s0 e

/-- C5: adding component v1 then v2 of the same type to the same entity
leaves exactly v2 retrievable, and the storage keeps at most one entry per
entity (its key list has no duplicates) in every reachable state. -/
theorem C5_overwrite_last_wins {τ : Type} [DecidableEq τ] (V : τ → Type)
    (ops : List (Op τ V)) (t : τ) (e : Entity) (v1 v2 : V t) :
    (((run ops).addComponent t e v1).addComponent t e v2).getComponent t e = some v2 ∧
    (∀ s, lookupStore (((run ops).addComponent t e v1).addComponent t e v2).components t =
        some s → (s.data.map Prod.fst).Nodup) := by
  constructor
  · exact getComponent_add _ t e v2
  · intro s hs
    have h0 := storesNodup_foldl ops (initManager τ V) storesNodup_init
    have h1 := storesNodup_applyOp (run ops) (Op.add t e v1) h0
    have h2 := storesNodup_applyOp _ (Op.add t e v2) h1
    exact h2 t s hs

/-- C5 witness: the theorem applied on the empty trace with health values
1 then 2 for entity 0. -/
theorem C5_witness :
    (((run ([] : List (Op CTag CVal))).addComponent CTag.health 0
        (Health.mk 1)).addComponent CTag.health 0 (Health.mk 2)).getComponent
      CTag.health 0 = some (Health.mk 2) ∧
    ((([(0, Health.mk 2)] : List (Entity × CVal CTag.health)).map Prod.fst).Nodup) :=
  ⟨(C5_overwrite_last_wins CVal [] CTag.health 0 (Health.mk 1) (Health.mk 2)).1,
   (C5_overwrite_last_wins CVal [] CTag.health 0 (Health.mk 1) (Health.mk 2)).2
     ⟨[(0, Health.mk 2)]⟩ (by decide)⟩

/-- C6, as stated, is false of the code: component operations never consult
the live set, so after addComponent on the never-created, non-live id 7,
hasComponent reports true even though 7 is not live; the claim asserts it
would be false for every non-live id. -/
theorem C6_counterexample :
    (7 : Entity) ∉ ((initManager CTag CVal).addComponent CTag.health 7
      (Health.mk 3)).entities ∧
    ((initManager CTag CVal).addComponent CTag.health 7
      (Health.mk 3)).hasComponent CTag.health 7 = true := by
  decide

/-- C6 (amended): the core operations are total on misuse in the sense of
storage content rather than liveness: for any id with no entry in the
storage of T, removeComponent is a no-op and getComponent is absent;
forEach on a type with no storage performs zero visits; destroyEntity on a
non-live id leaves the live list unchanged and appends the id to the free
list, never faulting. -/
theorem C6_total_on_misuse {τ : Type} [DecidableEq τ] (V : τ → Type)
    (m : EntityManager τ V) (t : τ) (e : Entity) :
    (m.hasComponent t e = false →
      m.removeComponent t e = m ∧ m.getComponent t e = none) ∧
    (lookupStore m.components t = none → m.forEachPairs t = []) ∧
    (e ∉ m.entities →
      (m.destroyEntity e).entities = m.entities ∧
      (m.destroyEntity e).freeIds = m.freeIds ++ [e]) := by
  refine ⟨?_, ?_, ?_⟩
  · intro hhas
    rcases hm : lookupStore m.components t with _ | s0
    · constructor
      · rw [EntityManager.removeComponent, hm]
      · rw [EntityManager.getComponent, hm]
    · rw [EntityManager.hasComponent, hm] at hhas
      have hfix : s0.remove e = s0 := remove_eq_of_has_false s0 e hhas
      constructor
      · rw [EntityManager.removeComponent, hm,
          updateStore_eq_of_fix m.components t _ s0 hm hfix]
      · rw [EntityManager.getComponent, hm]
        exact get_none_of_has_false s0 e hhas
  · intro hm
    rw [EntityManager.forEachPairs, hm]
  · intro hlive
    constructor
    · rw [EntityManager.destroyEntity]
      rw [List.filter_eq_self]
      intro x hx
      have hxe : x ≠ e := fun hxe => hlive (hxe ▸ hx)
      simp [hxe]
    · rfl

/-- C6 witness: the amended theorem applied to the fresh manager, type
health and the never-seen id 7. -/
theorem C6_witness :
    ((initManager CTag CVal).removeComponent CTag.health 7 = initManager CTag CVal ∧
     (initManager CTag CVal).getComponent CTag.health 7 = none) ∧
    (initManager CTag CVal).forEachPairs CTag.health = [] ∧
    (((initManager CTag CVal).destroyEntity 7).entities =
        (initManager CTag CVal).entities ∧
     ((initManager CTag CVal).destroyEntity 7).freeIds =
        (initManager CTag CVal).freeIds ++ [7]) :=
  ⟨(C6_total_on_misuse CVal (initManager CTag CVal) CTag.health 7).1 (by decide),
   (C6_total_on_misuse CVal (initManager CTag CVal) CTag.health 7).2.1 (by decide),
   (C6_total_on_misuse CVal (initManager CTag CVal) CTag.health 7).2.2 (by decide)⟩

/-- C7: storage for a type is created by the first addComponent of that type
(registered holding exactly the inserted value), every later operation keeps
a storage present once it exists, and the registry holds at most one storage
per type in every reachable state. -/
theorem C7_registry_unique_lazy_persistent {τ : Type} [DecidableEq τ]
    (V : τ → Type) :
    (∀ (m : EntityManager τ V) (t : τ) (e : Entity) (v : V t),
      lookupStore m.components t = none →
        lookupStore (m.addComponent t e v).components t =
          some (ComponentStorage.emplace ⟨[]⟩ e v)) ∧
    (∀ (m : EntityManager τ V) (t : τ) (e : Entity) (v : V t),
      ∃ s, lookupStore (m.addComponent t e v).components t = some s) ∧
    (∀ (m : EntityManager τ V) (op : Op τ V) (t : τ) (s : ComponentStorage (V t)),
      lookupStore m.components t = some s →
        ∃ s2, lookupStore (applyOp m op).components t = some s2) ∧
    (∀ ops : List (Op τ V), ((run ops).components.map Sigma.fst).Nodup) := by
  refine ⟨?_, ?_, ?_, ?_⟩
  · intro m t e v hm
    exact lookup_add_self_none m t e v hm
  · intro m t e v
    rcases hm : lookupStore m.components t with _ | s0
    · exact ⟨_, lookup_add_self_none m t e v hm⟩
    · exact ⟨_, lookup_add_self_some m t e v s0 hm⟩
  · intro m op t s hm
    cases op with
    | create =>
      refine ⟨s, ?_⟩
      rw [applyOp, create_components]
      exact hm
    | destroy e =>
      refine ⟨s.remove e, ?_⟩
      rw [applyOp, lookup_destroy, hm]
      rfl
    | add t' e v =>
      by_cases hte : t = t'
      · subst hte
        exact ⟨_, lookup_add_self_some m t e v s hm⟩
      · refine ⟨s, ?_⟩
        rw [applyOp, lookup_add_ne m t' t e v hte]
        exact hm
    | removeC t' e =>
      by_cases hte : t = t'
      · subst hte
        refine ⟨s.remove e, ?_⟩
        rw [applyOp, lookup_removeC_self, hm]
        rfl
      · refine ⟨s, ?_⟩
        rw [applyOp, lookup_removeC_ne m t' t e hte]
        exact hm
  · intro ops
    exact registryNodup_foldl ops (initManager τ V) (by simp [initManager])

/-- C7 witness: the theorem applied at concrete inputs: first add of health
for entity 0 registers the storage holding exactly that value, and the
storage survives a removeComponent that empties it. -/
theorem C7_witness :
    lookupStore ((initManager CTag CVal).addComponent CTag.health 0
        (Health.mk 5)).components CTag.health =
      some (ComponentStorage.emplace ⟨[]⟩ 0 (Health.mk 5)) ∧
    (∃ s2, lookupStore (applyOp ((initManager CTag CVal).addComponent CTag.health 0
        (Health.mk 5)) (Op.removeC CTag.health 0)).components CTag.health = some s2) :=
  ⟨(C7_registry_unique_lazy_persistent CVal).1 (initManager CTag CVal)
      CTag.health 0 (Health.mk 5) (by decide),
   (C7_registry_unique_lazy_persistent CVal).2.2.1
      ((initManager CTag CVal).addComponent CTag.health 0 (Health.mk 5))
      (Op.removeC CTag.health 0) CTag.health ⟨[(0, Health.mk 5)]⟩ (by decide)⟩

/-- C9: adding a component of type t never changes the storage of a distinct
type u: the storage, hasComponent, getComponent and the forEach pair list
for u are unchanged for every entity. -/
theorem C9_component_isolation {τ : Type} [DecidableEq τ] (V : τ → Type)
    (m : EntityManager τ V) (t u : τ) (e e2 : Entity) (v : V t) (hne : t ≠ u) :
    lookupStore (m.addComponent t e v).components u = lookupStore m.components u ∧
    (m.addComponent t e v).hasComponent u e2 = m.hasComponent u e2 ∧
    (m.addComponent t e v).getComponent u e2 = m.getComponent u e2 ∧
    (m.addComponent t e v).forEachPairs u = m.forEachPairs u := by
  have h := lookup_add_ne m t u e v (Ne.symm hne)
  refine ⟨h, ?_, ?_, ?_⟩
  · rw [EntityManager.hasComponent, EntityManager.hasComponent, h]
  · rw [EntityManager.getComponent, EntityManager.getComponent, h]
  · rw [EntityManager.forEachPairs, EntityManager.forEachPairs, h]

/-- C9 witness: the theorem applied with t health, u name on the fresh
manager. -/
theorem C9_witness :
    lookupStore ((initManager CTag CVal).addComponent CTag.health 0
        (Health.mk 1)).components CTag.name =
      lookupStore (initManager CTag CVal).components CTag.name ∧
    ((initManager CTag CVal).addComponent CTag.health 0
        (Health.mk 1)).hasComponent CTag.name 0 =
      (initManager CTag CVal).hasComponent CTag.name 0 ∧
    ((initManager CTag CVal).addComponent CTag.health 0
        (Health.mk 1)).getComponent CTag.name 0 =
      (initManager CTag CVal).getComponent CTag.name 0 ∧
    ((initManager CTag CVal).addComponent CTag.health 0
        (Health.mk 1)).forEachPairs CTag.name =
      (initManager CTag CVal).forEachPairs CTag.name :=
  C9_component_isolation CVal (initManager CTag CVal) CTag.health CTag.name
    0 0 (Health.mk 1) (by decide)

/-- C10: component operations never consult the live set: for any id e not
currently live, addComponent succeeds and stores the value, after which
hasComponent is true, getComponent returns the value, forEach visits e, and
e is still not live. -/
theorem C10_components_ignore_liveness {τ : Type} [DecidableEq τ]
    (V : τ → Type) (m : EntityManager τ V) (t : τ) (e : Entity) (v : V t)
    (h : e ∉ m.entities) :
    (m.addComponent t e v).hasComponent t e = true ∧
    (m.addComponent t e v).getComponent t e = some v ∧
    e ∈ ((m.addComponent t e v).forEachPairs t).map Prod.fst ∧
    e ∉ (m.addComponent t e v).entities := by
  refine ⟨hasComponent_add m t e v, getComponent_add m t e v,
    mem_forEachPairs_add m t e v, ?_⟩
  rw [(add_lifecycle_fields m t e v).1]
  exact h

/-- C10 witness: the theorem applied to the fresh manager and the
never-created id 7. -/
theorem C10_witness :
    ((initManager CTag CVal).addComponent CTag.health 7
        (Health.mk 3)).hasComponent CTag.health 7 = true ∧
    ((initManager CTag CVal).addComponent CTag.health 7
        (Health.mk 3)).getComponent CTag.health 7 = some (Health.mk 3) ∧
    (7 : Entity) ∈ (((initManager CTag CVal).addComponent CTag.health 7
        (Health.mk 3)).forEachPairs CTag.health).map Prod.fst ∧
    (7 : Entity) ∉ ((initManager CTag CVal).addComponent CTag.health 7
        (Health.mk 3)).entities :=
  C10_components_ignore_liveness CVal (initManager CTag CVal) CTag.health 7
    (Health.mk 3) (by decide)

/-- C2: evaluation of the code at the failing input. The forEach pair
sequence of the Health storage starts as (0, hp 1), (1, hp 5); running the
HealthSystem visitor body on the first pair erases the just-visited entry 0
from the very storage being iterated while (1, hp 5) is still pending, the
structural removal that the range-for loop of forEach does not tolerate
(erasing the current element invalidates the loop iterator of the
unordered_map, so the remainder of the traversal is undefined behavior in
the C++ code). -/
theorem C2_iteration_hazard :
    hazardManager.forEachPairs CTag.health = [(0, Health.mk 1), (1, Health.mk 5)] ∧
    (healthVisitBody hazardManager 0 (Health.mk 1)).forEachPairs CTag.health =
      [(1, Health.mk 5)] ∧
    (healthVisitBody hazardManager 0 (Health.mk 1)).hasComponent CTag.health 0 = false := by
  decide

/-- C8: evaluation of the code at the failing input. The visitor body does
decrement hp 1 to 0, destroy the entity, and remove it from the Health
storage and the live list; but it performs this erasure on the element the
forEach loop is currently visiting, so the completion of the update loop is
not guaranteed by the C++ code (iterator invalidation, undefined
behavior). -/
theorem C8_health_zero_destroys :
    dyingManager.forEachPairs CTag.health = [(0, Health.mk 1)] ∧
    (healthVisitBody dyingManager 0 (Health.mk 1)).forEachPairs CTag.health = [] ∧
    (healthVisitBody dyingManager 0 (Health.mk 1)).hasComponent CTag.health 0 = false ∧
    (0 : Entity) ∈ dyingManager.entities ∧
    (0 : Entity) ∉ (healthVisitBody dyingManager 0 (Health.mk 1)).entities := by
  decide

end ECS
